import Mathlib

/-!
Verification of the build-discovery and changelog core
(`src/pkg/changelog/changelog.go` and `src/pkg/findbuild/findbuild.go`).

The Go code is shallowly embedded: pure functions become Lean functions,
Go maps become association lists with Go lookup semantics (first match,
zero value on miss where the code relies on it), machine integers become
`Int`/`Nat` (no value in this code approaches 2^31), commit timestamps
become `Int` (Unix seconds; `time.Time.Before`/`After` become `<`/`>`,
`AddDate(0,0,d)` becomes `+ d * 86400`), and a Go function that can
return an error or panic becomes a `GoResult`.  Remote calls
(`client.Log`, `utils.Commits`, `utils.DownloadManifest`,
`ParseGitCommitLog`) are abstracted as function parameters: every claim
below quantifies over their behaviour or fixes it concretely.
-/

/-- Outcome of a Go function: a normal value, a returned `error`, or a
runtime panic (nil-pointer dereference, slice out of range). -/
inductive GoResult (α : Type) where
  | ok (val : α)
  | err (msg : String)
  | panic
deriving DecidableEq, Repr

/-- A commit as used by the core: the ID (hex hash) and the committer's
commit time (`none` models a nil `Committer` field).  All other payload
fields of `git.Commit` are irrelevant to the claims and omitted. -/
structure GitCommit where
  id : String
  committer : Option Int
deriving DecidableEq, Repr

/-- Association-list insert with Go map semantics: replace the existing
binding for the key, otherwise append. -/
def mapInsert {α : Type} (k : String) (v : α) : List (String × α) → List (String × α)
  | [] => [(k, v)]
  | (k', v') :: rest => if k' = k then (k, v) :: rest else (k', v') :: mapInsert k v rest

/-- Association-list lookup (Go `m[k]` in comma-ok form). -/
def mapLookup {α : Type} (m : List (String × α)) (k : String) : Option α :=
  (m.find? (fun p => p.1 == k)).map (fun p => p.2)

/-! ## 4.D Paged log fetcher (`commits`, changelog.go:158-215) -/

/-- `defaultPageSize` constant (changelog.go:50). -/
def defaultPageSize : Int := 1000

/-- `pageSizeGrowthMultiplier` constant (changelog.go:51). -/
def pageSizeGrowthMultiplier : Int := 5

/-- `maxPageSize` constant (changelog.go:52). -/
def maxPageSize : Int := 10000

/-- A `gitilesProto.LogRequest` as issued by `commits`. -/
structure LogRequest where
  project : String
  committish : String
  excludeAncestorsOf : String
  pageSize : Int
  pageToken : String
deriving DecidableEq, Repr

/-- A Gitiles log response: one page of commits plus a continuation
token; the empty token means no further page. -/
structure LogResponse where
  log : List GitCommit
  nextPageToken : String
deriving DecidableEq, Repr

/-- A deterministic log endpoint: what `client.Log` answers for each
request.  `GoResult.err` models a transport failure. -/
def LogEndpoint : Type := LogRequest → GoResult LogResponse

/-- The `for response.NextPageToken != ""` loop of `commits`
(changelog.go:188-206).  Returns the accumulated raw commits together
with the trace of page sizes sent; `fuel` bounds the iteration count
(the Go loop runs as long as the server returns tokens). -/
def commitsLoop (ep : LogEndpoint) (project committish ancestor : String) :
    Nat → Int → String → List GitCommit → List Int × GoResult (List GitCommit)
  | 0, _, _, _ => ([], GoResult.err "nontermination fuel exhausted")
  | Nat.succ fuel, pageSize, token, acc =>
    let pageSize' := if pageSize < maxPageSize then pageSize * pageSizeGrowthMultiplier else pageSize
    match ep ⟨project, committish, ancestor, pageSize', token⟩ with
    | GoResult.panic => ([pageSize'], GoResult.panic)
    | GoResult.err e => ([pageSize'], GoResult.err e)
    | GoResult.ok resp =>
      if resp.nextPageToken = "" then ([pageSize'], GoResult.ok (acc ++ resp.log))
      else
        let rec' := commitsLoop ep project committish ancestor fuel pageSize' resp.nextPageToken (acc ++ resp.log)
        (pageSize' :: rec'.1, rec'.2)

/-- `commits` (changelog.go:158-215): first request at `defaultPageSize`
with no token; on a continuation token, loop with exponential page-size
growth; finally parse the accumulated raw commits with
`ParseGitCommitLog` (abstracted as `parse`).  Returns the trace of page
sizes sent alongside the result. -/
def commits (ep : LogEndpoint) (parse : List GitCommit → GoResult (List GitCommit))
    (project committish ancestor : String) (fuel : Nat) :
    List Int × GoResult (List GitCommit) :=
  match ep ⟨project, committish, ancestor, defaultPageSize, ""⟩ with
  | GoResult.panic => ([defaultPageSize], GoResult.panic)
  | GoResult.err e => ([defaultPageSize], GoResult.err e)
  | GoResult.ok resp =>
    if resp.nextPageToken = "" then ([defaultPageSize], parse resp.log)
    else
      let rec' := commitsLoop ep project committish ancestor fuel defaultPageSize resp.nextPageToken resp.log
      (defaultPageSize :: rec'.1,
        match rec'.2 with
        | GoResult.ok l => parse l
        | GoResult.err e => GoResult.err e
        | GoResult.panic => GoResult.panic)

/-- An endpoint whose server returns continuation tokens on the first
two responses and none on the third: every repeated `Log` call answers
by page token, ignoring the page size (a deterministic three-page
history). -/
def threePageEndpoint : LogEndpoint := fun req =>
  if req.pageToken = "" then GoResult.ok ⟨[⟨"c1", none⟩], "t1"⟩
  else if req.pageToken = "t1" then GoResult.ok ⟨[⟨"c2", none⟩], "t2"⟩
  else GoResult.ok ⟨[⟨"c3", none⟩], ""⟩

/-! ## 4.B Manifest parser (`repoMap`, changelog.go:106-134)

The `etree` document is embedded as a tree of elements; `repoMap` takes
the already-parsed document (its top-level elements), so the only error
source left in the Go function - the XML syntax error - is out of the
picture and every other malformed shape plays out exactly as in the Go
code, where `SelectElement`/`SelectAttr` return nil and the subsequent
dereference panics. -/

/-- An XML attribute. -/
structure XMLAttr where
  key : String
  value : String
deriving DecidableEq, Repr

/-- An XML element: tag, attributes, child elements. -/
inductive XMLElem where
  | mk (tag : String) (attrs : List XMLAttr) (children : List XMLElem)

/-- The element's tag. -/
def XMLElem.tag : XMLElem → String
  | XMLElem.mk t _ _ => t

/-- The element's attribute list. -/
def XMLElem.attrs : XMLElem → List XMLAttr
  | XMLElem.mk _ a _ => a

/-- The element's child elements. -/
def XMLElem.children : XMLElem → List XMLElem
  | XMLElem.mk _ _ c => c

/-- `etree` `SelectElement`: first child with the given tag, nil if none. -/
def selectElement (e : XMLElem) (t : String) : Option XMLElem :=
  e.children.find? (fun c => c.tag == t)

/-- `etree` `SelectElements`: all children with the given tag. -/
def selectElements (e : XMLElem) (t : String) : List XMLElem :=
  e.children.filter (fun c => c.tag == t)

/-- `etree` `SelectAttr` followed by `.Value`: value of the first
attribute with the given key, nil (`none`) if absent. -/
def selectAttr (e : XMLElem) (k : String) : Option String :=
  (e.attrs.find? (fun a => a.key == k)).map (fun a => a.value)

/-- `etree` `SelectAttrValue`: like `selectAttr` with a default. -/
def selectAttrValue (e : XMLElem) (k : String) (dflt : String) : String :=
  (selectAttr e k).getD dflt

/-- `strings.Replace(s, pat, "", 1)` on character lists: remove the
first occurrence of `pat`. -/
def removeFirstOcc (pat : List Char) : List Char → List Char
  | [] => []
  | c :: rest =>
    if pat.isPrefixOf (c :: rest) then (c :: rest).drop pat.length
    else c :: removeFirstOcc pat rest

/-- `strings.Replace(url, "https://", "", 1)` (changelog.go:117). -/
def stripHttps (url : String) : String :=
  String.mk (removeFirstOcc "https://".data url.data)

/-- A `repo` value (changelog.go:55-66): Git-on-Borg instance URL plus
the pinned committish. -/
structure Repo where
  instanceURL : String
  committish : String
deriving DecidableEq, Repr

/-- Go `m[k]` on a `map[string]string`: zero value `""` on a miss. -/
def mapLookupD (m : List (String × String)) (k : String) : String :=
  (mapLookup m k).getD ""

/-- The `<remote>` loop of `repoMap` (changelog.go:116-119): for each
remote, dereference its `fetch` and `name` attributes (panicking when
one is absent, as `SelectAttr` returns nil) and record
`name -> strippedURL`. -/
def buildRemoteMap : List XMLElem → List (String × String) → GoResult (List (String × String))
  | [], acc => GoResult.ok acc
  | r :: rest, acc =>
    match selectAttr r "fetch" with
    | none => GoResult.panic
    | some fetch =>
      match selectAttr r "name" with
      | none => GoResult.panic
      | some name => buildRemoteMap rest (mapInsert name (stripHttps fetch) acc)

/-- The `<project>` loop of `repoMap` (changelog.go:127-132): for each
project, dereference its `name` and `revision` attributes (panicking
when one is absent) and record the `Repo` pin, resolving the remote
through the remote map with the Go zero-value default. -/
def buildProjects (remoteMap : List (String × String)) :
    List XMLElem → List (String × Repo) → GoResult (List (String × Repo))
  | [], acc => GoResult.ok acc
  | p :: rest, acc =>
    match selectAttr p "name" with
    | none => GoResult.panic
    | some name =>
      match selectAttr p "revision" with
      | none => GoResult.panic
      | some rev =>
        buildProjects remoteMap rest
          (mapInsert name ⟨mapLookupD remoteMap (selectAttrValue p "remote" ""), rev⟩ acc)

/-- `repoMap` (changelog.go:106-134) on a parsed document (list of
top-level elements).  A missing `manifest` root, a missing `default`
element, a `default` without a `remote` attribute, a remote without
`fetch`/`name`, or a project without `name`/`revision` all make the Go
code dereference nil and panic. -/
def repoMap (doc : List XMLElem) : GoResult (List (String × Repo)) :=
  match doc.find? (fun e => e.tag == "manifest") with
  | none => GoResult.panic
  | some root =>
    match buildRemoteMap (selectElements root "remote") [] with
    | GoResult.panic => GoResult.panic
    | GoResult.err e => GoResult.err e
    | GoResult.ok remoteMap0 =>
      match selectElement root "default" with
      | none => GoResult.panic
      | some dflt =>
        match selectAttr dflt "remote" with
        | none => GoResult.panic
        | some dfltName =>
          let remoteMap := mapInsert "" (mapLookupD remoteMap0 dfltName) remoteMap0
          buildProjects remoteMap (selectElements root "project") []

/-- A document is well formed when it has a `manifest` root, every
remote carries `fetch` and `name`, a `default` element with a `remote`
attribute exists, and every project carries `name` and `revision`
(spec section 4.B). -/
def wellFormedDoc (doc : List XMLElem) : Prop :=
  ∃ root, doc.find? (fun e => e.tag == "manifest") = some root ∧
    (∀ r ∈ selectElements root "remote", (selectAttr r "fetch").isSome ∧ (selectAttr r "name").isSome) ∧
    (∃ dflt, selectElement root "default" = some dflt ∧ (selectAttr dflt "remote").isSome) ∧
    (∀ p ∈ selectElements root "project", (selectAttr p "name").isSome ∧ (selectAttr p "revision").isSome)

/-! ## 4.H Build-mapper branch stripping (`manifestData`, findbuild.go:330-341) -/

/-- The `dest-branch` handling of `manifestData` (findbuild.go:332-336):
`branch := project.SelectAttrValue("dest-branch", "")`, then for a
non-empty value `branch = branch[11:]`, which panics when the string is
shorter than 11 and otherwise drops the first 11 characters whatever
they are. -/
def destBranchStrip (branch : String) : GoResult String :=
  if branch.length > 0 then
    if branch.length < 11 then GoResult.panic
    else GoResult.ok (String.mk (branch.data.drop 11))
  else GoResult.ok branch

/-- The per-project branch computation of `manifestData`: read the
`dest-branch` attribute with default `""` and strip it. -/
def manifestDataBranch (project : XMLElem) : GoResult String :=
  destBranchStrip (selectAttrValue project "dest-branch" "")

/-! ## 4.G Manifest-window selector (`candidateManifestCommits`, findbuild.go:210-250) -/

/-- `endBuildTime` constant (findbuild.go:58): days after CL submission
to search for the CL landing. -/
def endBuildTime : Int := 5

/-- `targetData.Time.AddDate(0, 0, endBuildTime)` with times as Unix
seconds. -/
def windowEnd (t : Int) : Int := t + endBuildTime * 86400

/-- Sentinel message of the no-committer failure (findbuild.go:222,239). -/
def errNoCommitter (id : String) : String := "Manifest " ++ id ++ " has no committer"

/-- First binary search of `candidateManifestCommits`
(findbuild.go:218-230): find the latest commit that occurs before the
target commit time.  Probes `mid = (left+right)/2`; a nil committer at a
probed index returns an error; exits with `left` when `left >= right`.
Each iteration strictly shrinks `right - left`, so any `fuel >= right -
left` makes the fuel branch unreachable (`bsearch1_fuel_irrel`). -/
def bsearch1 (ms : List GitCommit) (t : Int) : Nat → Nat → Nat → GoResult Nat
  | fuel, left, right =>
    if left < right then
      match fuel with
      | 0 => GoResult.err "loop bound exhausted"
      | Nat.succ fuel' =>
        let mid := (left + right) / 2
        match ms[mid]? with
        | none => GoResult.panic
        | some c =>
          match c.committer with
          | none => GoResult.err (errNoCommitter c.id)
          | some time =>
            if time < t then bsearch1 ms t fuel' left mid
            else bsearch1 ms t fuel' (mid + 1) right
    else GoResult.ok left

/-- Second binary search of `candidateManifestCommits`
(findbuild.go:234-247): find the earliest commit that occurs after the
end date.  Probes `mid = (left+right)/2 + 1`; exits with `right`. -/
def bsearch2 (ms : List GitCommit) (endDate : Int) : Nat → Nat → Nat → GoResult Nat
  | fuel, left, right =>
    if left < right then
      match fuel with
      | 0 => GoResult.err "loop bound exhausted"
      | Nat.succ fuel' =>
        let mid := (left + right) / 2 + 1
        match ms[mid]? with
        | none => GoResult.panic
        | some c =>
          match c.committer with
          | none => GoResult.err (errNoCommitter c.id)
          | some time =>
            if endDate < time then bsearch2 ms endDate fuel' mid right
            else bsearch2 ms endDate fuel' left (mid - 1)
    else GoResult.ok right

/-- Go slice `ms[a:b]`. -/
def goSlice (ms : List GitCommit) (a b : Nat) : List GitCommit :=
  (ms.drop a).take (b - a)

/-- `candidateManifestCommits` (findbuild.go:210-250) given the full
newest-first manifest commit list (the `utils.Commits` call is
abstracted: the list is the input).  The empty list makes the Go code
slice `allManifests[-1:1]`, a panic. -/
def candidateManifestCommits (ms : List GitCommit) (t : Int) : GoResult (List GitCommit) :=
  if ms.isEmpty then GoResult.panic
  else
    match bsearch1 ms t ms.length 0 (ms.length - 1) with
    | GoResult.panic => GoResult.panic
    | GoResult.err e => GoResult.err e
    | GoResult.ok earliestIdx =>
      match bsearch2 ms (windowEnd t) ms.length 0 earliestIdx with
      | GoResult.panic => GoResult.panic
      | GoResult.err e => GoResult.err e
      | GoResult.ok latestIdx => GoResult.ok (goSlice ms latestIdx (earliestIdx + 1))

/-! ## 4.F Change-locator release derivation (`getCLData`, findbuild.go:189-196) -/

/-- A `clReleaseMapping` entry (findbuild.go:66-73): `matchGroup1 s`
models `releaseRe.FindStringSubmatch(s)` returning capture group 1 when
the match succeeds (`len(matches) == 2`) and `none` otherwise. -/
structure ReleaseRule where
  matchGroup1 : String → Option String
  defaultRelease : String

/-- Split `s` as `a ++ pat ++ b` with the longest possible `a` (the
greedy leading `(.*)` of the regex), if `pat` occurs at all. -/
def findLastSplit (pat : List Char) : List Char → Option (List Char × List Char)
  | [] => if pat.isEmpty then some ([], []) else none
  | c :: rest =>
    match findLastSplit pat rest with
    | some (a, b) => some (c :: a, b)
    | none =>
      if pat.isPrefixOf (c :: rest) then some ([], (c :: rest).drop pat.length)
      else none

/-- Capture group 1 of Go's `regexp.MustCompile("(.*)-cos-.*")` on `s`:
the pattern matches iff `-cos-` occurs in `s`, and the greedy `(.*)`
captures everything before the last occurrence. -/
def kernelGroup1 (s : String) : Option String :=
  (findLastSplit "-cos-".data s.data).map (fun ab => String.mk ab.1)

/-- The `clReleaseMapping` table (findbuild.go:66-78): only
`third_party/kernel` has a rule. -/
def clReleaseMapping (project : String) : Option ReleaseRule :=
  if project = "third_party/kernel" then some ⟨kernelGroup1, "master"⟩ else none

/-- The release derivation of `getCLData` (findbuild.go:189-196):
`release := change.Branch`; when the project has a rule,
`release = rule.defaultRelease` and then
`matches := rule.releaseRe.FindStringSubmatch(release)` - the regex is
applied to `release`, which at that point holds the default release -
with `release = matches[1]` when `len(matches) == 2`. -/
def deriveRelease (project branch : String) : String :=
  match clReleaseMapping project with
  | none => branch
  | some rule =>
    match rule.matchGroup1 rule.defaultRelease with
    | some g => g
    | none => rule.defaultRelease

/-! ## 4.I Build-resolver (`firstBuild`, findbuild.go:405-423) -/

/-- `ErrorCLNotLanded` (findbuild.go:81). -/
def errCLNotLanded : String := "No build found containing CL"

/-- The `targetIdx` scan of `firstBuild` (findbuild.go:407-412):
`targetIdx := -1; for i, commit := range changelog { if commit.Id ==
rev { targetIdx = i } }` - the last matching index wins. -/
def targetIdxLoop (rev : String) : List GitCommit → Int → Int → Int
  | [], _, acc => acc
  | c :: rest, i, acc => targetIdxLoop rev rest (i + 1) (if c.id = rev then i else acc)

/-- The value of `targetIdx` after the scan. -/
def targetIdx (cl : List GitCommit) (rev : String) : Int :=
  targetIdxLoop rev cl 0 (-1)

/-- The downward scan of `firstBuild` (findbuild.go:416-421): walk
`i = targetIdx, ..., 0` and return `candidates[changelog[i].Id]` at the
first hit; `ErrorCLNotLanded` when the loop exhausts. -/
def scanDown (cl : List GitCommit) (cands : List (String × String)) : Nat → GoResult String
  | 0 =>
    match cl[0]? with
    | some c =>
      match mapLookup cands c.id with
      | some b => GoResult.ok b
      | none => GoResult.err errCLNotLanded
    | none => GoResult.err errCLNotLanded
  | Nat.succ i =>
    match cl[i + 1]? with
    | some c =>
      match mapLookup cands c.id with
      | some b => GoResult.ok b
      | none => scanDown cl cands i
    | none => scanDown cl cands i

/-- `firstBuild` (findbuild.go:405-423). -/
def firstBuild (cl : List GitCommit) (rev : String) (cands : List (String × String)) :
    GoResult String :=
  let tIdx := targetIdx cl rev
  if tIdx = -1 then GoResult.err errCLNotLanded
  else scanDown cl cands tIdx.toNat

/-! ## 4.H Build-mapper aggregation (`getRepoData`, findbuild.go:352-401)

`candidateBuildNums` and the concurrent `manifestData` downloads are
abstracted: `getRepoDataAgg` takes the window's build numbers (newest
first) and the per-manifest results in their channel arrival order, and
performs the aggregation loop of findbuild.go:359-400. -/

/-- A `manifestResponse` (findbuild.go:145-150); `isErr` models a
non-nil `Err` field (the aggregation reads no other field then). -/
structure ManifestResp where
  buildNum : String
  sha : String
  remoteURL : String
  isErr : Bool
deriving DecidableEq, Repr

/-- The `buildOrder` construction loop (findbuild.go:358-361):
`buildOrder[buildNum] = i * -1` over the window, newest first. -/
def buildOrderLoop : List String → Int → List (String × Int) → List (String × Int)
  | [], _, acc => acc
  | b :: rest, i, acc => buildOrderLoop rest (i + 1) (mapInsert b (-i) acc)

/-- Go `buildOrder[b]`: zero value `0` on a miss. -/
def buildOrder (buildNums : List String) (b : String) : Int :=
  (mapLookup (buildOrderLoop buildNums 0 []) b).getD 0

/-- `ErrorNoManifestBranchMatch` (findbuild.go:93). -/
def errNoManifestBranchMatch : String :=
  "No manifest files were found containing a matching repository and branch as the target CL"

/-- Message of the remote-URL-changed failure (findbuild.go:380). -/
def errRemoteChanged (buildNum : String) : String :=
  "getRepoData: Remote URL for repository changed in build " ++ buildNum

/-- The aggregation state: the `output` `repoData` under construction
plus the loop-local `sourceOrder`/`targetOrder` (findbuild.go:363,372). -/
structure AggState where
  candidates : List (String × String)
  sourceSHA : String
  targetSHA : String
  remoteURL : String
  sourceOrder : Int
  targetOrder : Int
deriving DecidableEq, Repr

/-- Initial aggregation state: empty candidates, zero-value strings,
`sourceOrder, targetOrder := len(buildNums), len(buildNums)*-1`. -/
def aggInit (n : Nat) : AggState :=
  ⟨[], "", "", "", (n : Int), -(n : Int)⟩

/-- One iteration of the aggregation loop (findbuild.go:373-396):
skip errored responses; fail when the remote URL changes; update
target/source SHA by window order; keep, per SHA, the build with the
smallest `buildOrder` value.  The Go statements update disjoint fields
in sequence (each comparison reads the value from before its own
update), so they are rendered as one simultaneous record update. -/
def aggStep (bo : String → Int) (st : AggState) (r : ManifestResp) : GoResult AggState :=
  if r.isErr then GoResult.ok st
  else if st.remoteURL ≠ "" ∧ st.remoteURL ≠ r.remoteURL then
    GoResult.err (errRemoteChanged r.buildNum)
  else
    GoResult.ok
      { candidates :=
          match mapLookup st.candidates r.sha with
          | none => mapInsert r.sha r.buildNum st.candidates
          | some stored =>
            if bo r.buildNum < bo stored then mapInsert r.sha r.buildNum st.candidates
            else st.candidates
        sourceSHA := if bo r.buildNum < st.sourceOrder then r.sha else st.sourceSHA
        targetSHA := if st.targetOrder < bo r.buildNum then r.sha else st.targetSHA
        remoteURL := r.remoteURL
        sourceOrder := if bo r.buildNum < st.sourceOrder then bo r.buildNum else st.sourceOrder
        targetOrder := if st.targetOrder < bo r.buildNum then bo r.buildNum else st.targetOrder }

/-- The aggregation loop over the arrived responses. -/
def aggLoop (bo : String → Int) : List ManifestResp → AggState → GoResult AggState
  | [], st => GoResult.ok st
  | r :: rest, st =>
    match aggStep bo st r with
    | GoResult.ok st' => aggLoop bo rest st'
    | GoResult.err e => GoResult.err e
    | GoResult.panic => GoResult.panic

/-- The aggregation of `getRepoData` (findbuild.go:352-401) over the
window build numbers and the per-manifest results in arrival order;
empty candidates at the end mean `ErrorNoManifestBranchMatch`. -/
def getRepoDataAgg (buildNums : List String) (rs : List ManifestResp) : GoResult AggState :=
  match aggLoop (buildOrder buildNums) rs (aggInit buildNums.length) with
  | GoResult.ok st =>
    if st.candidates.isEmpty then GoResult.err errNoManifestBranchMatch else GoResult.ok st
  | GoResult.err e => GoResult.err e
  | GoResult.panic => GoResult.panic

/-! ## 4.E Changelog engine (`additions` and `Changelog`,
changelog.go:219-311)

The per-repository goroutines all write to one channel and the
aggregator inserts into a map, so with a deterministic endpoint the
result does not depend on arrival order; the fan-out is sequentialized
in manifest order. -/

/-- The ancestor committish for a target repository
(changelog.go:226-229): the source pin when present, else `""`. -/
def ancestorFor (sourceRepos : List (String × Repo)) (name : String) : String :=
  match mapLookup sourceRepos name with
  | some s => s.committish
  | none => ""

/-- The fan-out/aggregation of `additions` (changelog.go:219-244):
one `commits` call per target repository (the client chosen by instance
URL), fail on the first error, insert only non-empty commit lists. -/
def additionsLoop (endpoints : String → LogEndpoint)
    (parse : List GitCommit → GoResult (List GitCommit)) (fuel : Nat)
    (sourceRepos : List (String × Repo)) :
    List (String × Repo) → List (String × List GitCommit) →
      GoResult (List (String × List GitCommit))
  | [], acc => GoResult.ok acc
  | (name, tinfo) :: rest, acc =>
    match (commits (endpoints tinfo.instanceURL) parse name tinfo.committish
        (ancestorFor sourceRepos name) fuel).2 with
    | GoResult.err e => GoResult.err e
    | GoResult.panic => GoResult.panic
    | GoResult.ok cs =>
      additionsLoop endpoints parse fuel sourceRepos rest
        (if cs.length > 0 then mapInsert name cs acc else acc)

/-- `additions` (changelog.go:219-244). -/
def additions (endpoints : String → LogEndpoint)
    (parse : List GitCommit → GoResult (List GitCommit)) (fuel : Nat)
    (sourceRepos targetRepos : List (String × Repo)) :
    GoResult (List (String × List GitCommit)) :=
  additionsLoop endpoints parse fuel sourceRepos targetRepos []

/-- `Changelog` (changelog.go:267-311): download and parse both
manifests (`mappedManifest`, with the download abstracted as
`fetchManifest`), then compute both directions with `additions`. -/
def Changelog (fetchManifest : String → GoResult (List XMLElem))
    (endpoints : String → LogEndpoint)
    (parse : List GitCommit → GoResult (List GitCommit)) (fuel : Nat)
    (sourceBuildNum targetBuildNum : String) :
    GoResult (List (String × List GitCommit) × List (String × List GitCommit)) :=
  match fetchManifest sourceBuildNum with
  | GoResult.err e => GoResult.err e
  | GoResult.panic => GoResult.panic
  | GoResult.ok sdoc =>
    match repoMap sdoc with
    | GoResult.err e => GoResult.err e
    | GoResult.panic => GoResult.panic
    | GoResult.ok sourceRepos =>
      match fetchManifest targetBuildNum with
      | GoResult.err e => GoResult.err e
      | GoResult.panic => GoResult.panic
      | GoResult.ok tdoc =>
        match repoMap tdoc with
        | GoResult.err e => GoResult.err e
        | GoResult.panic => GoResult.panic
        | GoResult.ok targetRepos =>
          match additions endpoints parse fuel sourceRepos targetRepos with
          | GoResult.err e => GoResult.err e
          | GoResult.panic => GoResult.panic
          | GoResult.ok adds =>
            match additions endpoints parse fuel targetRepos sourceRepos with
            | GoResult.err e => GoResult.err e
            | GoResult.panic => GoResult.panic
            | GoResult.ok removals => GoResult.ok (adds, removals)

/-! ## Specification predicates used by the theorems -/

/-- The committer time at index `i` of a commit list (0 when out of
range or when the committer is nil; only used under hypotheses that
exclude both). -/
def cTime (ms : List GitCommit) (i : Nat) : Int :=
  match ms[i]? with
  | some c => c.committer.getD 0
  | none => 0

/-- Every commit of the list carries a committer. -/
def allCommitters (ms : List GitCommit) : Prop :=
  ∀ c ∈ ms, c.committer.isSome

/-- The list is newest first: committer times do not increase with the
index. -/
def timesAntitone (ms : List GitCommit) : Prop :=
  ∀ j, j < ms.length → ∀ i, i ≤ j → cTime ms j ≤ cTime ms i

/-- Invariant of the `getRepoData` aggregation loop: after processing
`processed`, the candidate map holds, per SHA, exactly the pinning
response with the smallest `buildOrder` value. -/
def aggCandInv (bo : String → Int) (processed : List ManifestResp)
    (cands : List (String × String)) : Prop :=
  ∀ sha,
    (mapLookup cands sha = none → ∀ r ∈ processed, r.isErr = false → r.sha ≠ sha) ∧
    (∀ b, mapLookup cands sha = some b →
      (∃ r ∈ processed, r.isErr = false ∧ r.sha = sha ∧ r.buildNum = b) ∧
      (∀ r ∈ processed, r.isErr = false → r.sha = sha →
        bo b ≤ bo r.buildNum))

/-! ## Helper lemmas -/

theorem mapLookup_nil {α : Type} (k : String) : mapLookup ([] : List (String × α)) k = none := rfl

theorem mapInsert_nil {α : Type} (k : String) (v : α) : mapInsert k v [] = [(k, v)] := rfl

theorem mapInsert_cons {α : Type} (k k'' : String) (v v'' : α) (rest : List (String × α)) :
    mapInsert k v ((k'', v'') :: rest) =
      if k'' = k then (k, v) :: rest else (k'', v'') :: mapInsert k v rest := rfl

theorem mapLookup_cons {α : Type} (k'' k' : String) (v'' : α) (rest : List (String × α)) :
    mapLookup ((k'', v'') :: rest) k' = if k'' = k' then some v'' else mapLookup rest k' := by
  by_cases h : k'' = k'
  · subst h
    simp [mapLookup, List.find?]
  · have hb : (k'' == k') = false := by simp [h]
    simp [mapLookup, List.find?, hb, h]

theorem mapLookup_mapInsert {α : Type} (k k' : String) (v : α) (m : List (String × α)) :
    mapLookup (mapInsert k v m) k' = if k' = k then some v else mapLookup m k' := by
  induction m with
  | nil =>
    rw [mapInsert_nil, mapLookup_cons]
    by_cases h : k' = k
    · simp [h]
    · have h2 : ¬(k = k') := fun hh => h hh.symm
      simp [h, h2, mapLookup_nil]
  | cons p rest ih =>
    obtain ⟨k'', v''⟩ := p
    rw [mapInsert_cons]
    by_cases h1 : k'' = k
    · rw [if_pos h1]
      subst h1
      rw [mapLookup_cons, mapLookup_cons]
      by_cases h2 : k'' = k'
      · rw [if_pos h2, if_pos h2.symm]
      · have h3 : ¬(k' = k'') := fun hh => h2 hh.symm
        rw [if_neg h2, if_neg h3, if_neg h2]
    · rw [if_neg h1, mapLookup_cons, mapLookup_cons]
      by_cases h2 : k'' = k'
      · subst h2
        simp [h1]
      · rw [if_neg h2, if_neg h2, ih]

/-! ## Claim C1 -/

/-- C1: the claim states the page sizes sent by `commits` are 1000,
5000, 10000, 10000, ... capped at `maxPageSize`.  The code multiplies
before checking the cap (`if pageSize < maxPageSize { pageSize *= 5 }`,
changelog.go:189-190), so against a server that returns continuation
tokens on the first two responses the third request carries page size
25000, exceeding the code's own `maxPageSize` constant. -/
theorem commits_pageSize_exceeds_max :
    (commits threePageEndpoint GoResult.ok "r" "c" "a" 10).1 = [1000, 5000, 25000] ∧
    maxPageSize < 25000 := by
  decide

/-! ## Claim C5 -/

/-- C5: the claim states `getCLData` applies the rule's regex to the
change's branch name.  The code (findbuild.go:191-195) first overwrites
`release` with `rule.defaultRelease` and then matches the regex against
that constant, so for `third_party/kernel` the result is `"master"`
whatever the branch; applying the rule's regex to the branch
`"4.19-cos-rc1"` (as the claim requires) would give capture group 1
`"4.19"` instead. -/
theorem getCLData_release_ignores_branch :
    (∀ branch : String, deriveRelease "third_party/kernel" branch = "master") ∧
    kernelGroup1 "4.19-cos-rc1" = some "4.19" ∧
    deriveRelease "third_party/kernel" "4.19-cos-rc1" ≠ "4.19" := by
  refine ⟨fun branch => ?_, by decide, by decide⟩
  rfl

/-! ## Claim C10 -/

/-- C10: for a non-empty `dest-branch` attribute, `manifestData` strips
exactly the first 11 characters unconditionally: a length between 1 and
10 makes `branch[11:]` panic, and a length of at least 11 drops the
first 11 characters whether or not they spell `refs/heads/`. -/
theorem manifestData_branch_strip :
    ∀ (p : XMLElem) (s : String), selectAttrValue p "dest-branch" "" = s →
      (s.length = 0 → manifestDataBranch p = GoResult.ok s) ∧
      (0 < s.length → s.length < 11 → manifestDataBranch p = GoResult.panic) ∧
      (11 ≤ s.length → manifestDataBranch p = GoResult.ok (String.mk (s.data.drop 11))) := by
  intro p s hs
  unfold manifestDataBranch destBranchStrip
  rw [hs]
  refine ⟨fun h0 => ?_, fun h1 h2 => ?_, fun h3 => ?_⟩
  · rw [if_neg (by omega)]
  · rw [if_pos (by omega), if_pos (by omega)]
  · rw [if_pos (by omega), if_neg (by omega)]

/-- C10 witness: a 13-character value that does not start with
`refs/heads/` still loses its first 11 characters, and a short value
panics. -/
theorem manifestData_branch_strip_witness :
    manifestDataBranch (XMLElem.mk "project" [⟨"dest-branch", "abcdefghijkXY"⟩] []) =
      GoResult.ok "XY" ∧
    manifestDataBranch (XMLElem.mk "project" [⟨"dest-branch", "short"⟩] []) =
      GoResult.panic := by
  constructor
  · have h := (manifestData_branch_strip
      (XMLElem.mk "project" [⟨"dest-branch", "abcdefghijkXY"⟩] []) "abcdefghijkXY"
      (by decide)).2.2 (by decide)
    simpa using h
  · exact (manifestData_branch_strip
      (XMLElem.mk "project" [⟨"dest-branch", "short"⟩] []) "short"
      (by decide)).2.1 (by decide) (by decide)

/-! ## Claim C3 -/

/-- C3 counterexample: on input without a `manifest` root, `repoMap`
does not return a MalformedManifest error value - the Go code
dereferences the nil result of `doc.SelectElement("manifest")` and
panics. -/
theorem repoMap_missing_root_cex :
    repoMap [] = GoResult.panic ∧ ∀ msg, repoMap [] ≠ GoResult.err msg := by
  refine ⟨by decide, fun msg h => ?_⟩
  rw [show repoMap [] = GoResult.panic from by decide] at h
  exact GoResult.noConfusion h

theorem buildRemoteMap_no_err (l : List XMLElem) (acc : List (String × String)) :
    buildRemoteMap l acc ≠ GoResult.err "" ∧
    (buildRemoteMap l acc = GoResult.panic ∨ ∃ m, buildRemoteMap l acc = GoResult.ok m) := by
  induction l generalizing acc with
  | nil => exact ⟨by simp [buildRemoteMap], Or.inr ⟨acc, rfl⟩⟩
  | cons r rest ih =>
    unfold buildRemoteMap
    cases hf : selectAttr r "fetch" with
    | none => exact ⟨by simp, Or.inl rfl⟩
    | some fetch =>
      cases hn : selectAttr r "name" with
      | none => exact ⟨by simp, Or.inl rfl⟩
      | some name => exact ih _

theorem buildRemoteMap_bad (l : List XMLElem) (acc : List (String × String))
    (hbad : ∃ r ∈ l, selectAttr r "fetch" = none ∨ selectAttr r "name" = none) :
    buildRemoteMap l acc = GoResult.panic := by
  induction l generalizing acc with
  | nil => exact absurd hbad (by simp)
  | cons r rest ih =>
    unfold buildRemoteMap
    cases hf : selectAttr r "fetch" with
    | none => rfl
    | some fetch =>
      cases hn : selectAttr r "name" with
      | none => rfl
      | some name =>
        obtain ⟨r', hr', hor⟩ := hbad
        rcases List.mem_cons.mp hr' with heq | hmem
        · subst heq
          rcases hor with h | h
          · rw [hf] at h; exact Option.noConfusion h
          · rw [hn] at h; exact Option.noConfusion h
        · exact ih _ ⟨r', hmem, hor⟩

theorem buildRemoteMap_good (l : List XMLElem) (acc : List (String × String))
    (hgood : ∀ r ∈ l, (selectAttr r "fetch").isSome ∧ (selectAttr r "name").isSome) :
    ∃ m, buildRemoteMap l acc = GoResult.ok m := by
  induction l generalizing acc with
  | nil => exact ⟨acc, rfl⟩
  | cons r rest ih =>
    obtain ⟨hf, hn⟩ := hgood r (List.mem_cons_self r rest)
    obtain ⟨fetch, hf'⟩ := Option.isSome_iff_exists.mp hf
    obtain ⟨name, hn'⟩ := Option.isSome_iff_exists.mp hn
    unfold buildRemoteMap
    rw [hf', hn']
    exact ih _ (fun r' hr' => hgood r' (List.mem_cons_of_mem r hr'))

theorem buildProjects_bad (rm : List (String × String)) (l : List XMLElem)
    (acc : List (String × Repo))
    (hbad : ∃ p ∈ l, selectAttr p "name" = none ∨ selectAttr p "revision" = none) :
    buildProjects rm l acc = GoResult.panic := by
  induction l generalizing acc with
  | nil => exact absurd hbad (by simp)
  | cons p rest ih =>
    unfold buildProjects
    cases hn : selectAttr p "name" with
    | none => rfl
    | some name =>
      cases hv : selectAttr p "revision" with
      | none => rfl
      | some rev =>
        obtain ⟨p', hp', hor⟩ := hbad
        rcases List.mem_cons.mp hp' with heq | hmem
        · subst heq
          rcases hor with h | h
          · rw [hn] at h; exact Option.noConfusion h
          · rw [hv] at h; exact Option.noConfusion h
        · exact ih _ ⟨p', hmem, hor⟩

theorem buildProjects_good (rm : List (String × String)) (l : List XMLElem)
    (acc : List (String × Repo))
    (hgood : ∀ p ∈ l, (selectAttr p "name").isSome ∧ (selectAttr p "revision").isSome) :
    ∃ m, buildProjects rm l acc = GoResult.ok m := by
  induction l generalizing acc with
  | nil => exact ⟨acc, rfl⟩
  | cons p rest ih =>
    obtain ⟨hn, hv⟩ := hgood p (List.mem_cons_self p rest)
    obtain ⟨name, hn'⟩ := Option.isSome_iff_exists.mp hn
    obtain ⟨rev, hv'⟩ := Option.isSome_iff_exists.mp hv
    unfold buildProjects
    rw [hn', hv']
    exact ih _ (fun p' hp' => hgood p' (List.mem_cons_of_mem p hp'))

/-- C3 amended: `repoMap` panics - it does not return an error value -
when the `manifest` root is missing, when a remote lacks `fetch` or
`name`, when the `default` element or its `remote` attribute is
missing, or when a project lacks `name` or `revision`; for well-formed
documents it returns the repository map without error. -/
theorem repoMap_amended :
    ∀ doc : List XMLElem,
      (doc.find? (fun e => e.tag == "manifest") = none → repoMap doc = GoResult.panic) ∧
      (∀ root, doc.find? (fun e => e.tag == "manifest") = some root →
        ((∃ r ∈ selectElements root "remote",
            selectAttr r "fetch" = none ∨ selectAttr r "name" = none) →
          repoMap doc = GoResult.panic) ∧
        (selectElement root "default" = none → repoMap doc = GoResult.panic) ∧
        (∀ dflt, selectElement root "default" = some dflt →
          selectAttr dflt "remote" = none → repoMap doc = GoResult.panic) ∧
        ((∃ p ∈ selectElements root "project",
            selectAttr p "name" = none ∨ selectAttr p "revision" = none) →
          repoMap doc = GoResult.panic)) ∧
      (wellFormedDoc doc → ∃ m, repoMap doc = GoResult.ok m) := by
  intro doc
  refine ⟨fun hroot => ?_, fun root hroot => ?_, fun hwf => ?_⟩
  · unfold repoMap
    simp only [hroot]
  · refine ⟨fun hbad => ?_, fun hdflt => ?_, fun dflt hdflt hattr => ?_, fun hbad => ?_⟩
    · unfold repoMap
      simp only [hroot, buildRemoteMap_bad _ _ hbad]
    · unfold repoMap
      rcases (buildRemoteMap_no_err (selectElements root "remote") []).2 with hp | ⟨m, hm⟩
      · simp only [hroot, hp]
      · simp only [hroot, hm, hdflt]
    · unfold repoMap
      rcases (buildRemoteMap_no_err (selectElements root "remote") []).2 with hp | ⟨m, hm⟩
      · simp only [hroot, hp]
      · simp only [hroot, hm, hdflt, hattr]
    · unfold repoMap
      rcases (buildRemoteMap_no_err (selectElements root "remote") []).2 with hp | ⟨m, hm⟩
      · simp only [hroot, hp]
      · cases hd : selectElement root "default" with
        | none => simp only [hroot, hm, hd]
        | some dflt =>
          cases ha : selectAttr dflt "remote" with
          | none => simp only [hroot, hm, hd, ha]
          | some dname => simp only [hroot, hm, hd, ha, buildProjects_bad _ _ _ hbad]
  · obtain ⟨root, hroot, hrem, ⟨dflt, hdflt, hattr⟩, hproj⟩ := hwf
    unfold repoMap
    obtain ⟨rm, hrm⟩ := buildRemoteMap_good (selectElements root "remote") [] hrem
    obtain ⟨dname, hdname⟩ := Option.isSome_iff_exists.mp hattr
    obtain ⟨m, hmfinal⟩ := buildProjects_good (mapInsert "" (mapLookupD rm dname) rm)
      (selectElements root "project") [] hproj
    refine ⟨m, ?_⟩
    simp only [hroot, hrm, hdflt, hdname, hmfinal]

/-- C3 witness: a well-formed single-project document parses to its
repository map, through the well-formed conjunct of `repoMap_amended`. -/
theorem repoMap_amended_witness :
    ∃ m, repoMap [XMLElem.mk "manifest" []
        [XMLElem.mk "remote" [⟨"fetch", "https://host.example"⟩, ⟨"name", "o"⟩] [],
         XMLElem.mk "default" [⟨"remote", "o"⟩] [],
         XMLElem.mk "project" [⟨"name", "repoA"⟩, ⟨"revision", "deadbeef"⟩] []]] =
      GoResult.ok m := by
  refine (repoMap_amended _).2.2 ⟨XMLElem.mk "manifest" []
    [XMLElem.mk "remote" [⟨"fetch", "https://host.example"⟩, ⟨"name", "o"⟩] [],
     XMLElem.mk "default" [⟨"remote", "o"⟩] [],
     XMLElem.mk "project" [⟨"name", "repoA"⟩, ⟨"revision", "deadbeef"⟩] []], rfl, ?_,
    ⟨XMLElem.mk "default" [⟨"remote", "o"⟩] [], rfl, rfl⟩, ?_⟩
  · decide
  · decide

/-! ## Claim C8 -/

theorem bsearch1_step (ms : List GitCommit) (t : Int) (fuel left right : Nat)
    (h : left < right) :
    bsearch1 ms t (fuel + 1) left right =
      match ms[(left + right) / 2]? with
      | none => GoResult.panic
      | some c =>
        match c.committer with
        | none => GoResult.err (errNoCommitter c.id)
        | some time =>
          if time < t then bsearch1 ms t fuel left ((left + right) / 2)
          else bsearch1 ms t fuel ((left + right) / 2 + 1) right := by
  conv_lhs => unfold bsearch1
  rw [if_pos h]

theorem bsearch1_exit (ms : List GitCommit) (t : Int) (fuel left right : Nat)
    (h : ¬(left < right)) :
    bsearch1 ms t fuel left right = GoResult.ok left := by
  unfold bsearch1
  rw [if_neg h]

theorem bsearch2_step (ms : List GitCommit) (endDate : Int) (fuel left right : Nat)
    (h : left < right) :
    bsearch2 ms endDate (fuel + 1) left right =
      match ms[(left + right) / 2 + 1]? with
      | none => GoResult.panic
      | some c =>
        match c.committer with
        | none => GoResult.err (errNoCommitter c.id)
        | some time =>
          if endDate < time then bsearch2 ms endDate fuel ((left + right) / 2 + 1) right
          else bsearch2 ms endDate fuel left ((left + right) / 2 + 1 - 1) := by
  conv_lhs => unfold bsearch2
  rw [if_pos h]

theorem bsearch2_exit (ms : List GitCommit) (endDate : Int) (fuel left right : Nat)
    (h : ¬(left < right)) :
    bsearch2 ms endDate fuel left right = GoResult.ok right := by
  unfold bsearch2
  rw [if_neg h]

/-- C8 counterexample: a single-commit manifest list whose only commit
lacks a committer is returned successfully - the claim requires a
MalformedHistory failure for every committer-less commit, but the
binary searches of `candidateManifestCommits` never probe this one. -/
theorem candidateManifestCommits_committer_cex :
    candidateManifestCommits [⟨"a", none⟩] 0 = GoResult.ok [⟨"a", none⟩] ∧
    ∀ e, candidateManifestCommits [⟨"a", none⟩] 0 ≠ GoResult.err e := by
  refine ⟨by decide, fun e h => ?_⟩
  rw [show candidateManifestCommits [⟨"a", none⟩] 0 = GoResult.ok [⟨"a", none⟩] from by decide] at h
  exact GoResult.noConfusion h

/-- C8 amended: a committer-less commit record makes
`candidateManifestCommits` fail only when one of the binary searches
probes its index; in particular, for a list of at least two commits
whose commit at the first probe index `(length - 1) / 2` lacks a
committer, the function fails with the no-committer error, while a
committer-less commit at a never-probed index (for example the sole
element of a one-commit list) goes undetected. -/
theorem candidateManifestCommits_committer_amended :
    ∀ (ms : List GitCommit) (t : Int) (c : GitCommit),
      2 ≤ ms.length → ms[(ms.length - 1) / 2]? = some c → c.committer = none →
      candidateManifestCommits ms t = GoResult.err (errNoCommitter c.id) := by
  intro ms t c hlen hgot hcomm
  have hne : ms.isEmpty = false := by
    cases ms with
    | nil => simp at hlen
    | cons a l => rfl
  obtain ⟨k, hk⟩ : ∃ k, ms.length = k + 2 := ⟨ms.length - 2, by omega⟩
  have hstep : bsearch1 ms t ms.length 0 (ms.length - 1) = GoResult.err (errNoCommitter c.id) := by
    rw [hk]
    have h01 : (0 : Nat) < k + 2 - 1 := by omega
    rw [show k + 2 = (k + 1) + 1 from rfl, bsearch1_step ms t (k + 1) 0 (k + 2 - 1) h01]
    have hidx : (0 + (k + 2 - 1)) / 2 = (ms.length - 1) / 2 := by omega
    rw [hidx]
    simp only [hgot, hcomm]
  unfold candidateManifestCommits
  simp only [hne, Bool.false_eq_true, if_false, hstep]

/-- C8 witness: a two-commit list whose first commit (the probe at
index 0) lacks a committer fails with the no-committer error. -/
theorem candidateManifestCommits_committer_witness :
    candidateManifestCommits [⟨"a", none⟩, ⟨"b", some 5⟩] 0 =
      GoResult.err (errNoCommitter "a") := by
  exact candidateManifestCommits_committer_amended [⟨"a", none⟩, ⟨"b", some 5⟩] 0
    ⟨"a", none⟩ (by decide) (by decide) (by decide)

/-! ## Claim C2 -/

/-- C2 counterexample: for a perfectly ordinary newest-first list (all
committers present, times antitone) the returned slice contains a
commit newer than `t + 5d` (time 518400 at the newest end) and a commit
older than `t` (time -86400 at the oldest end): the code's comments say
it deliberately keeps the latest commit before the target time and the
earliest commit after the end date, so not every commit of the slice
lies in `[t, t+5d]`. -/
theorem candidateManifestCommits_window_cex :
    candidateManifestCommits
      [⟨"m0", some 864000⟩, ⟨"m1", some 518400⟩, ⟨"m2", some 259200⟩,
       ⟨"m3", some 86400⟩, ⟨"m4", some (-86400)⟩, ⟨"m5", some (-172800)⟩] 0 =
      GoResult.ok [⟨"m1", some 518400⟩, ⟨"m2", some 259200⟩,
       ⟨"m3", some 86400⟩, ⟨"m4", some (-86400)⟩] ∧
    windowEnd 0 < 518400 ∧ (-86400 : Int) < 0 := by
  decide

theorem bsearch1_spec (ms : List GitCommit) (t : Int)
    (hcomm : allCommitters ms) (hanti : timesAntitone ms) :
    ∀ fuel left right, right - left ≤ fuel → right < ms.length → left ≤ right →
      ∃ e, bsearch1 ms t fuel left right = GoResult.ok e ∧ left ≤ e ∧ e ≤ right ∧
        (∀ i, left ≤ i → i < e → t ≤ cTime ms i) ∧
        (cTime ms e < t ∨ e = right) := by
  intro fuel
  induction fuel with
  | zero =>
    intro left right hf hr hlr
    have hlr' : left = right := by omega
    exact ⟨left, bsearch1_exit ms t 0 left right (by omega), le_refl _, by omega,
      fun i h1 h2 => absurd h2 (by omega), Or.inr hlr'⟩
  | succ fuel ih =>
    intro left right hf hr hlr
    by_cases h : left < right
    · have hmidlt : (left + right) / 2 < right := by omega
      have hmidge : left ≤ (left + right) / 2 := by omega
      have hmidlen : (left + right) / 2 < ms.length := by omega
      have hc : ms[(left + right) / 2]? = some (ms[(left + right) / 2]) :=
        List.getElem?_eq_getElem hmidlen
      have hmem : ms[(left + right) / 2] ∈ ms := List.getElem_mem hmidlen
      obtain ⟨time, htime⟩ := Option.isSome_iff_exists.mp (hcomm _ hmem)
      have hct : cTime ms ((left + right) / 2) = time := by simp [cTime, hc, htime]
      rw [bsearch1_step ms t fuel left right h]
      simp only [hc, htime]
      by_cases hcmp : time < t
      · rw [if_pos hcmp]
        obtain ⟨e, he, h1, h2, h3, h4⟩ := ih left ((left + right) / 2) (by omega) (by omega) (by omega)
        refine ⟨e, he, h1, by omega, h3, ?_⟩
        rcases h4 with h4 | h4
        · exact Or.inl h4
        · refine Or.inl ?_
          rw [h4, hct]
          exact hcmp
      · rw [if_neg hcmp]
        obtain ⟨e, he, h1, h2, h3, h4⟩ := ih ((left + right) / 2 + 1) right (by omega) hr (by omega)
        refine ⟨e, he, by omega, h2, ?_, h4⟩
        intro i hi1 hi2
        by_cases hile : (left + right) / 2 + 1 ≤ i
        · exact h3 i hile hi2
        · have hmono := hanti ((left + right) / 2) hmidlen i (by omega)
          have ht : t ≤ time := not_lt.mp hcmp
          omega
    · exact ⟨left, bsearch1_exit ms t (fuel + 1) left right h, le_refl _, by omega,
        fun i h1 h2 => absurd h2 (by omega), Or.inr (by omega)⟩

theorem bsearch2_spec (ms : List GitCommit) (endDate : Int)
    (hcomm : allCommitters ms) (hanti : timesAntitone ms) :
    ∀ fuel left right, right - left ≤ fuel → right < ms.length → left ≤ right →
      ∃ e, bsearch2 ms endDate fuel left right = GoResult.ok e ∧ left ≤ e ∧ e ≤ right ∧
        (∀ i, e < i → i ≤ right → cTime ms i ≤ endDate) ∧
        (endDate < cTime ms e ∨ e = left) := by
  intro fuel
  induction fuel with
  | zero =>
    intro left right hf hr hlr
    have hlr' : left = right := by omega
    exact ⟨right, bsearch2_exit ms endDate 0 left right (by omega), by omega, le_refl _,
      fun i h1 h2 => absurd h1 (by omega), Or.inr hlr'.symm⟩
  | succ fuel ih =>
    intro left right hf hr hlr
    by_cases h : left < right
    · have hmidle : (left + right) / 2 + 1 ≤ right := by omega
      have hmidgt : left < (left + right) / 2 + 1 := by omega
      have hmidlen : (left + right) / 2 + 1 < ms.length := by omega
      have hc : ms[(left + right) / 2 + 1]? = some (ms[(left + right) / 2 + 1]) :=
        List.getElem?_eq_getElem hmidlen
      have hmem : ms[(left + right) / 2 + 1] ∈ ms := List.getElem_mem hmidlen
      obtain ⟨time, htime⟩ := Option.isSome_iff_exists.mp (hcomm _ hmem)
      have hct : cTime ms ((left + right) / 2 + 1) = time := by simp [cTime, hc, htime]
      rw [bsearch2_step ms endDate fuel left right h]
      simp only [hc, htime]
      by_cases hcmp : endDate < time
      · rw [if_pos hcmp]
        obtain ⟨e, he, h1, h2, h3, h4⟩ := ih ((left + right) / 2 + 1) right (by omega) hr (by omega)
        refine ⟨e, he, by omega, h2, h3, ?_⟩
        rcases h4 with h4 | h4
        · exact Or.inl h4
        · refine Or.inl ?_
          rw [h4, hct]
          exact hcmp
      · rw [if_neg hcmp]
        obtain ⟨e, he, h1, h2, h3, h4⟩ := ih left ((left + right) / 2 + 1 - 1) (by omega) (by omega) (by omega)
        refine ⟨e, he, h1, by omega, ?_, h4⟩
        intro i hi1 hi2
        by_cases hile : i ≤ (left + right) / 2 + 1 - 1
        · exact h3 i hi1 hile
        · have hmono := hanti i (by omega) ((left + right) / 2 + 1) (by omega)
          have ht : time ≤ endDate := not_lt.mp hcmp
          omega
    · exact ⟨right, bsearch2_exit ms endDate (fuel + 1) left right h, by omega, le_refl _,
        fun i h1 h2 => absurd h1 (by omega), Or.inr (by omega)⟩

/-- C2 amended: for a nonempty newest-first manifest commit list with
all committers present, `candidateManifestCommits` returns the
contiguous slice between indices `latest` and `earliest`; every commit
of the slice other than possibly its first and last elements has
timestamp in `[t, t+5d]`, and the commits immediately outside the slice
lie outside the interval (the neighbour past the oldest end is strictly
older than `t`, the neighbour past the newest end is strictly newer
than `t+5d`).  The first and the last element of the slice themselves
may lie outside the interval: the code deliberately includes the
newest commit strictly older than `t` and the oldest commit strictly
newer than `t+5d`. -/
theorem candidateManifestCommits_window_amended :
    ∀ (ms : List GitCommit) (t : Int),
      ms ≠ [] → allCommitters ms → timesAntitone ms →
      ∃ latest earliest,
        candidateManifestCommits ms t = GoResult.ok (goSlice ms latest (earliest + 1)) ∧
        latest ≤ earliest ∧ earliest < ms.length ∧
        (∀ i, latest < i → i < earliest → t ≤ cTime ms i ∧ cTime ms i ≤ windowEnd t) ∧
        (earliest + 1 < ms.length → cTime ms (earliest + 1) < t) ∧
        (0 < latest → windowEnd t < cTime ms (latest - 1)) := by
  intro ms t hne hcomm hanti
  have hlen : 0 < ms.length := List.length_pos.mpr hne
  have hemp : ms.isEmpty = false := by
    cases ms with
    | nil => exact absurd rfl hne
    | cons a l => rfl
  obtain ⟨e1, he1, h1a, h1b, h1int, h1disj⟩ :=
    bsearch1_spec ms t hcomm hanti ms.length 0 (ms.length - 1) (by omega) (by omega) (by omega)
  obtain ⟨e2, he2, h2a, h2b, h2int, h2disj⟩ :=
    bsearch2_spec ms (windowEnd t) hcomm hanti ms.length 0 e1 (by omega) (by omega) (by omega)
  refine ⟨e2, e1, ?_, by omega, by omega, ?_, ?_, ?_⟩
  · unfold candidateManifestCommits
    simp only [hemp, Bool.false_eq_true, if_false, he1, he2]
  · intro i hi1 hi2
    exact ⟨h1int i (by omega) hi2, h2int i hi1 (by omega)⟩
  · intro hnext
    rcases h1disj with hd | hd
    · have hmono := hanti (e1 + 1) hnext e1 (by omega)
      omega
    · omega
  · intro hprev
    rcases h2disj with hd | hd
    · have hmono := hanti e2 (by omega) (e2 - 1) (by omega)
      omega
    · omega

/-- C2 witness: the amended window property at a concrete six-commit
newest-first list around submission time 0. -/
theorem candidateManifestCommits_window_witness :
    ∃ latest earliest,
      candidateManifestCommits
        [⟨"m0", some 864000⟩, ⟨"m1", some 518400⟩, ⟨"m2", some 259200⟩,
         ⟨"m3", some 86400⟩, ⟨"m4", some (-86400)⟩, ⟨"m5", some (-172800)⟩] 0 =
        GoResult.ok (goSlice
          [⟨"m0", some 864000⟩, ⟨"m1", some 518400⟩, ⟨"m2", some 259200⟩,
           ⟨"m3", some 86400⟩, ⟨"m4", some (-86400)⟩, ⟨"m5", some (-172800)⟩]
          latest (earliest + 1)) ∧
      latest ≤ earliest ∧
      earliest < 6 ∧
      (∀ i, latest < i → i < earliest →
        (0 : Int) ≤ cTime
          [⟨"m0", some 864000⟩, ⟨"m1", some 518400⟩, ⟨"m2", some 259200⟩,
           ⟨"m3", some 86400⟩, ⟨"m4", some (-86400)⟩, ⟨"m5", some (-172800)⟩] i ∧
        cTime
          [⟨"m0", some 864000⟩, ⟨"m1", some 518400⟩, ⟨"m2", some 259200⟩,
           ⟨"m3", some 86400⟩, ⟨"m4", some (-86400)⟩, ⟨"m5", some (-172800)⟩] i ≤ windowEnd 0) ∧
      (earliest + 1 < 6 → cTime
          [⟨"m0", some 864000⟩, ⟨"m1", some 518400⟩, ⟨"m2", some 259200⟩,
           ⟨"m3", some 86400⟩, ⟨"m4", some (-86400)⟩, ⟨"m5", some (-172800)⟩] (earliest + 1) < 0) ∧
      (0 < latest → windowEnd 0 < cTime
          [⟨"m0", some 864000⟩, ⟨"m1", some 518400⟩, ⟨"m2", some 259200⟩,
           ⟨"m3", some 86400⟩, ⟨"m4", some (-86400)⟩, ⟨"m5", some (-172800)⟩] (latest - 1)) := by
  exact candidateManifestCommits_window_amended
    [⟨"m0", some 864000⟩, ⟨"m1", some 518400⟩, ⟨"m2", some 259200⟩,
     ⟨"m3", some 86400⟩, ⟨"m4", some (-86400)⟩, ⟨"m5", some (-172800)⟩] 0
    (by decide) (by unfold allCommitters; decide) (by unfold timesAntitone; decide)

/-! ## Claim C4 -/

theorem targetIdxLoop_no_match (rev : String) (l : List GitCommit) :
    ∀ (i acc : Int), (∀ c ∈ l, c.id ≠ rev) → targetIdxLoop rev l i acc = acc := by
  induction l with
  | nil => intro i acc h; rfl
  | cons c rest ih =>
    intro i acc h
    show targetIdxLoop rev rest (i + 1) (if c.id = rev then i else acc) = acc
    rw [if_neg (h c (List.mem_cons_self c rest))]
    exact ih (i + 1) acc (fun c' h' => h c' (List.mem_cons_of_mem c h'))

theorem targetIdxLoop_match (rev : String) (l : List GitCommit) :
    ∀ (i acc : Int), (∃ c ∈ l, c.id = rev) →
      ∃ j : Nat, targetIdxLoop rev l i acc = i + (j : Int) ∧
        ∃ c, l[j]? = some c ∧ c.id = rev := by
  induction l with
  | nil => intro i acc h; exact absurd h (by simp)
  | cons c rest ih =>
    intro i acc hex
    by_cases hrest : ∃ c' ∈ rest, c'.id = rev
    · obtain ⟨j, hj, c', hc', hid⟩ := ih (i + 1) (if c.id = rev then i else acc) hrest
      refine ⟨j + 1, ?_, c', by simpa using hc', hid⟩
      show targetIdxLoop rev rest (i + 1) (if c.id = rev then i else acc) = i + ((j : Int) + 1)
      rw [hj]
      omega
    · have hc : c.id = rev := by
        obtain ⟨c', hc', hid⟩ := hex
        rcases List.mem_cons.mp hc' with heq | hmem
        · exact heq ▸ hid
        · exact absurd ⟨c', hmem, hid⟩ hrest
      refine ⟨0, ?_, c, by simp, hc⟩
      show targetIdxLoop rev rest (i + 1) (if c.id = rev then i else acc) = i + ((0 : Nat) : Int)
      rw [if_pos hc,
        targetIdxLoop_no_match rev rest (i + 1) i (fun c' h' hid => hrest ⟨c', h', hid⟩)]
      omega

/-- C4: the build resolver: when the change revision occurs in the
repository commit list and is a key of the candidate map, `firstBuild`
returns exactly that candidate build (the downward scan starts at the
revision itself and hits it immediately); when the revision does not
occur in the commit list at all, `firstBuild` returns
`ErrorCLNotLanded`. -/
theorem firstBuild_spec :
    ∀ (cl : List GitCommit) (rev : String) (cands : List (String × String)),
      ((∃ c ∈ cl, c.id = rev) → ∀ b, mapLookup cands rev = some b →
        firstBuild cl rev cands = GoResult.ok b) ∧
      ((∀ c ∈ cl, c.id ≠ rev) → firstBuild cl rev cands = GoResult.err errCLNotLanded) := by
  intro cl rev cands
  constructor
  · intro hex b hb
    obtain ⟨j, hj, c, hc, hid⟩ := targetIdxLoop_match rev cl 0 (-1) hex
    unfold firstBuild targetIdx
    rw [hj, if_neg (by omega)]
    have htn : ((0 : Int) + (j : Int)).toNat = j := by omega
    rw [htn]
    cases j with
    | zero => simp only [scanDown, hc, hid, hb]
    | succ jj => simp only [scanDown, hc, hid, hb]
  · intro hnone
    unfold firstBuild targetIdx
    rw [targetIdxLoop_no_match rev cl 0 (-1) hnone, if_pos rfl]

/-- C4 witness: a three-commit changelog with the revision at index 1
and the candidate map binding that revision. -/
theorem firstBuild_spec_witness :
    firstBuild [⟨"c2", some 0⟩, ⟨"c1", some 0⟩, ⟨"c0", some 0⟩] "c1" [("c1", "B7")] =
      GoResult.ok "B7" ∧
    firstBuild [⟨"c2", some 0⟩, ⟨"c1", some 0⟩, ⟨"c0", some 0⟩] "zz" [("zz", "B7")] =
      GoResult.err errCLNotLanded := by
  constructor
  · exact (firstBuild_spec [⟨"c2", some 0⟩, ⟨"c1", some 0⟩, ⟨"c0", some 0⟩] "c1"
      [("c1", "B7")]).1 (by decide) "B7" (by decide)
  · exact (firstBuild_spec [⟨"c2", some 0⟩, ⟨"c1", some 0⟩, ⟨"c0", some 0⟩] "zz"
      [("zz", "B7")]).2 (by decide)

/-! ## Claim C9 -/

theorem additionsLoop_no_empty (endpoints : String → LogEndpoint)
    (parse : List GitCommit → GoResult (List GitCommit)) (fuel : Nat)
    (sourceRepos : List (String × Repo)) :
    ∀ (targets : List (String × Repo)) (acc m : List (String × List GitCommit)),
      (∀ k v, mapLookup acc k = some v → v ≠ []) →
      additionsLoop endpoints parse fuel sourceRepos targets acc = GoResult.ok m →
      ∀ k v, mapLookup m k = some v → v ≠ [] := by
  intro targets
  induction targets with
  | nil =>
    intro acc m hacc h
    have : acc = m := by
      simpa [additionsLoop, GoResult.ok.injEq] using h
    exact this ▸ hacc
  | cons p rest ih =>
    obtain ⟨name, tinfo⟩ := p
    intro acc m hacc h
    unfold additionsLoop at h
    cases hc : (commits (endpoints tinfo.instanceURL) parse name tinfo.committish
        (ancestorFor sourceRepos name) fuel).2 with
    | err e =>
      simp only [hc] at h
      exact GoResult.noConfusion h
    | panic =>
      simp only [hc] at h
      exact GoResult.noConfusion h
    | ok cs =>
      simp only [hc] at h
      by_cases hl : cs.length > 0
      · rw [if_pos hl] at h
        refine ih _ m ?_ h
        intro k v hkv
        rw [mapLookup_mapInsert] at hkv
        by_cases hk : k = name
        · rw [if_pos hk] at hkv
          have hv : cs = v := by injection hkv
          intro hemp
          rw [hemp] at hv
          rw [hv] at hl
          simp at hl
        · rw [if_neg hk] at hkv
          exact hacc k v hkv
      · rw [if_neg hl] at h
        exact ih _ m hacc h

/-- C9: a repository whose computed commit list is empty is omitted
from the output map of `additions`; every key of the output map is
bound to a non-empty commit list (changelog.go:238-240 inserts only
when `len(res.Commits) > 0`). -/
theorem additions_no_empty :
    ∀ (endpoints : String → LogEndpoint)
      (parse : List GitCommit → GoResult (List GitCommit)) (fuel : Nat)
      (sourceRepos targetRepos : List (String × Repo))
      (m : List (String × List GitCommit)),
      additions endpoints parse fuel sourceRepos targetRepos = GoResult.ok m →
      ∀ k v, mapLookup m k = some v → v ≠ [] := by
  intro endpoints parse fuel sourceRepos targetRepos m h
  exact additionsLoop_no_empty endpoints parse fuel sourceRepos targetRepos [] m
    (fun k v hkv => by rw [mapLookup_nil] at hkv; exact Option.noConfusion hkv) h

/-- C9 witness: one target repository whose log returns one commit; the
output binds it to that non-empty list. -/
theorem additions_no_empty_witness :
    [GitCommit.mk "c1" none] ≠ ([] : List GitCommit) := by
  refine additions_no_empty (fun _ => fun _ => GoResult.ok ⟨[⟨"c1", none⟩], ""⟩)
    GoResult.ok 0 [] [("repoA", ⟨"u", "tc"⟩)] [("repoA", [⟨"c1", none⟩])] (by decide)
    "repoA" [⟨"c1", none⟩] (by decide)

/-! ## Claim C6 -/

/-- C6: with the same manifests and the same deterministic log
endpoint, the additions of `Changelog(S, T)` equal the removals of
`Changelog(T, S)` and vice versa: both directions are computed by the
same `additions` function with the argument manifests swapped
(changelog.go:299-300). -/
theorem Changelog_symmetric :
    ∀ (fetchManifest : String → GoResult (List XMLElem))
      (endpoints : String → LogEndpoint)
      (parse : List GitCommit → GoResult (List GitCommit)) (fuel : Nat)
      (sourceBuildNum targetBuildNum : String)
      (a r a' r' : List (String × List GitCommit)),
      Changelog fetchManifest endpoints parse fuel sourceBuildNum targetBuildNum =
        GoResult.ok (a, r) →
      Changelog fetchManifest endpoints parse fuel targetBuildNum sourceBuildNum =
        GoResult.ok (a', r') →
      a = r' ∧ r = a' := by
  intro fetch endpoints parse fuel S T a r a' r' h1 h2
  unfold Changelog at h1 h2
  cases hfS : fetch S with
  | err e =>
    simp only [hfS] at h1
    exact GoResult.noConfusion h1
  | panic =>
    simp only [hfS] at h1
    exact GoResult.noConfusion h1
  | ok sdoc =>
    simp only [hfS] at h1 h2
    cases hrS : repoMap sdoc with
    | err e =>
      simp only [hrS] at h1
      exact GoResult.noConfusion h1
    | panic =>
      simp only [hrS] at h1
      exact GoResult.noConfusion h1
    | ok sourceRepos =>
      simp only [hrS] at h1 h2
      cases hfT : fetch T with
      | err e =>
        simp only [hfT] at h1
        exact GoResult.noConfusion h1
      | panic =>
        simp only [hfT] at h1
        exact GoResult.noConfusion h1
      | ok tdoc =>
        simp only [hfT] at h1 h2
        cases hrT : repoMap tdoc with
        | err e =>
          simp only [hrT] at h1
          exact GoResult.noConfusion h1
        | panic =>
          simp only [hrT] at h1
          exact GoResult.noConfusion h1
        | ok targetRepos =>
          simp only [hrT] at h1 h2
          cases hST : additions endpoints parse fuel sourceRepos targetRepos with
          | err e =>
            simp only [hST] at h1
            exact GoResult.noConfusion h1
          | panic =>
            simp only [hST] at h1
            exact GoResult.noConfusion h1
          | ok addsST =>
            simp only [hST] at h1 h2
            cases hTS : additions endpoints parse fuel targetRepos sourceRepos with
            | err e =>
              simp only [hTS] at h1
              exact GoResult.noConfusion h1
            | panic =>
              simp only [hTS] at h1
              exact GoResult.noConfusion h1
            | ok addsTS =>
              simp only [hTS] at h1 h2
              simp only [GoResult.ok.injEq, Prod.mk.injEq] at h1 h2
              obtain ⟨ha, hr⟩ := h1
              obtain ⟨ha', hr'⟩ := h2
              subst ha
              subst hr
              subst ha'
              subst hr'
              exact ⟨rfl, rfl⟩

/-- C6 witness: a one-project manifest served for both builds, with a
single-commit log; both orders succeed and the maps swap. -/
theorem Changelog_symmetric_witness :
    [("repoA", [GitCommit.mk "c1" none])] = [("repoA", [GitCommit.mk "c1" none])] ∧
    [("repoA", [GitCommit.mk "c1" none])] = [("repoA", [GitCommit.mk "c1" none])] := by
  refine Changelog_symmetric
    (fun _ => GoResult.ok [XMLElem.mk "manifest" []
      [XMLElem.mk "remote" [⟨"fetch", "host.example"⟩, ⟨"name", "o"⟩] [],
       XMLElem.mk "default" [⟨"remote", "o"⟩] [],
       XMLElem.mk "project" [⟨"name", "repoA"⟩, ⟨"revision", "deadbeef"⟩] []]])
    (fun _ => fun _ => GoResult.ok ⟨[⟨"c1", none⟩], ""⟩) GoResult.ok 0
    "12871.0.0" "12871.1.0" _ _ _ _ (by decide) (by decide)

/-! ## Claim C7 -/

theorem buildOrderLoop_not_mem (b : String) :
    ∀ (l : List String) (i : Int) (acc : List (String × Int)), b ∉ l →
      mapLookup (buildOrderLoop l i acc) b = mapLookup acc b := by
  intro l
  induction l with
  | nil => intro i acc _; rfl
  | cons x rest ih =>
    intro i acc hnm
    show mapLookup (buildOrderLoop rest (i + 1) (mapInsert x (-i) acc)) b = mapLookup acc b
    rw [ih (i + 1) _ (fun h => hnm (List.mem_cons_of_mem x h)), mapLookup_mapInsert,
      if_neg (fun h => hnm (by rw [h]; exact List.mem_cons_self x rest))]

theorem buildOrderLoop_mem (b : String) :
    ∀ (l : List String) (i : Int) (acc : List (String × Int)), l.Nodup → b ∈ l →
      mapLookup acc b = none →
      ∃ j : Nat, mapLookup (buildOrderLoop l i acc) b = some (-(i + (j : Int))) ∧
        l[j]? = some b := by
  intro l
  induction l with
  | nil => intro i acc _ hmem _; exact absurd hmem (List.not_mem_nil b)
  | cons x rest ih =>
    intro i acc hnd hmem hacc
    by_cases hbx : b = x
    · subst hbx
      have hbrest : b ∉ rest := (List.nodup_cons.mp hnd).1
      refine ⟨0, ?_, by simp⟩
      show mapLookup (buildOrderLoop rest (i + 1) (mapInsert b (-i) acc)) b = _
      rw [buildOrderLoop_not_mem b rest (i + 1) _ hbrest, mapLookup_mapInsert, if_pos rfl]
      norm_num
    · have hbrest : b ∈ rest := by
        rcases List.mem_cons.mp hmem with h | h
        · exact absurd h hbx
        · exact h
      have hacc' : mapLookup (mapInsert x (-i) acc) b = none := by
        rw [mapLookup_mapInsert, if_neg hbx]
        exact hacc
      obtain ⟨j, hj, hg⟩ := ih (i + 1) (mapInsert x (-i) acc) (List.nodup_cons.mp hnd).2
        hbrest hacc'
      refine ⟨j + 1, ?_, by simpa using hg⟩
      show mapLookup (buildOrderLoop rest (i + 1) (mapInsert x (-i) acc)) b = _
      rw [hj]
      congr 1
      push_cast
      ring

theorem buildOrder_inj (bn : List String) (hnd : bn.Nodup) (a b : String)
    (ha : a ∈ bn) (hb : b ∈ bn) (h : buildOrder bn a = buildOrder bn b) : a = b := by
  obtain ⟨j1, hj1, hg1⟩ := buildOrderLoop_mem a bn 0 [] hnd ha (mapLookup_nil a)
  obtain ⟨j2, hj2, hg2⟩ := buildOrderLoop_mem b bn 0 [] hnd hb (mapLookup_nil b)
  unfold buildOrder at h
  rw [hj1, hj2] at h
  simp only [Option.getD_some, neg_inj] at h
  have hj : j1 = j2 := by omega
  rw [hj, hg2] at hg1
  injection hg1 with h'
  exact h'.symm

theorem aggStep_inv (bo : String → Int) (processed : List ManifestResp)
    (st st' : AggState) (r : ManifestResp)
    (hinv : aggCandInv bo processed st.candidates)
    (h : aggStep bo st r = GoResult.ok st') :
    aggCandInv bo (processed ++ [r]) st'.candidates := by
  unfold aggStep at h
  by_cases herr : r.isErr
  · rw [if_pos herr] at h
    have hst : st = st' := by
      injection h
    subst hst
    intro sha
    obtain ⟨hn, hs⟩ := hinv sha
    refine ⟨fun hnone x hx hxe => ?_, fun b hb => ?_⟩
    · rcases List.mem_append.mp hx with hx | hx
      · exact hn hnone x hx hxe
      · rw [List.mem_singleton.mp hx] at hxe
        rw [herr] at hxe
        exact Bool.noConfusion hxe
    · obtain ⟨⟨r1, hr1, hr1p⟩, hmin⟩ := hs b hb
      refine ⟨⟨r1, List.mem_append.mpr (Or.inl hr1), hr1p⟩, fun x hx hxe hxs => ?_⟩
      rcases List.mem_append.mp hx with hx | hx
      · exact hmin x hx hxe hxs
      · rw [List.mem_singleton.mp hx] at hxe
        rw [herr] at hxe
        exact Bool.noConfusion hxe
  · rw [if_neg herr] at h
    have herr' : r.isErr = false := by
      cases hrr : r.isErr
      · rfl
      · exact absurd hrr herr
    by_cases hrem : st.remoteURL ≠ "" ∧ st.remoteURL ≠ r.remoteURL
    · rw [if_pos hrem] at h
      exact GoResult.noConfusion h
    · rw [if_neg hrem] at h
      have hcand : st'.candidates =
          match mapLookup st.candidates r.sha with
          | none => mapInsert r.sha r.buildNum st.candidates
          | some stored =>
            if bo r.buildNum < bo stored then mapInsert r.sha r.buildNum st.candidates
            else st.candidates := by
        have h' := (GoResult.ok.injEq _ _).mp h.symm
        rw [h']
      cases hl : mapLookup st.candidates r.sha with
      | none =>
        simp only [hl] at hcand
        intro sha
        obtain ⟨hn, hs⟩ := hinv sha
        by_cases hsha : sha = r.sha
        · subst hsha
          refine ⟨fun hnone => ?_, fun b hb => ?_⟩
          · rw [hcand, mapLookup_mapInsert, if_pos rfl] at hnone
            exact Option.noConfusion hnone
          · rw [hcand, mapLookup_mapInsert, if_pos rfl] at hb
            have hbval : b = r.buildNum := by
              injection hb with h'
              exact h'.symm
            subst hbval
            refine ⟨⟨r, List.mem_append.mpr (Or.inr (List.mem_singleton.mpr rfl)),
              herr', rfl, rfl⟩, fun x hx hxe hxs => ?_⟩
            rcases List.mem_append.mp hx with hx | hx
            · exact absurd hxs (hn hl x hx hxe)
            · rw [List.mem_singleton.mp hx]
        · refine ⟨fun hnone x hx hxe => ?_, fun b hb => ?_⟩
          · rw [hcand, mapLookup_mapInsert, if_neg hsha] at hnone
            rcases List.mem_append.mp hx with hx | hx
            · exact hn hnone x hx hxe
            · rw [List.mem_singleton.mp hx]
              exact fun hc => hsha hc.symm
          · rw [hcand, mapLookup_mapInsert, if_neg hsha] at hb
            obtain ⟨⟨r1, hr1, hr1p⟩, hmin⟩ := hs b hb
            refine ⟨⟨r1, List.mem_append.mpr (Or.inl hr1), hr1p⟩,
              fun x hx hxe hxs => ?_⟩
            rcases List.mem_append.mp hx with hx | hx
            · exact hmin x hx hxe hxs
            · rw [List.mem_singleton.mp hx] at hxs
              exact absurd hxs.symm hsha
      | some stored =>
        simp only [hl] at hcand
        by_cases hlt : bo r.buildNum < bo stored
        · rw [if_pos hlt] at hcand
          intro sha
          obtain ⟨hn, hs⟩ := hinv sha
          by_cases hsha : sha = r.sha
          · subst hsha
            refine ⟨fun hnone => ?_, fun b hb => ?_⟩
            · rw [hcand, mapLookup_mapInsert, if_pos rfl] at hnone
              exact Option.noConfusion hnone
            · rw [hcand, mapLookup_mapInsert, if_pos rfl] at hb
              have hbval : b = r.buildNum := by
                injection hb with h'
                exact h'.symm
              subst hbval
              obtain ⟨hex, hminstored⟩ := hs stored hl
              refine ⟨⟨r, List.mem_append.mpr (Or.inr (List.mem_singleton.mpr rfl)),
                herr', rfl, rfl⟩, fun x hx hxe hxs => ?_⟩
              rcases List.mem_append.mp hx with hx | hx
              · exact le_trans (le_of_lt hlt) (hminstored x hx hxe hxs)
              · rw [List.mem_singleton.mp hx]
          · refine ⟨fun hnone x hx hxe => ?_, fun b hb => ?_⟩
            · rw [hcand, mapLookup_mapInsert, if_neg hsha] at hnone
              rcases List.mem_append.mp hx with hx | hx
              · exact hn hnone x hx hxe
              · rw [List.mem_singleton.mp hx]
                exact fun hc => hsha hc.symm
            · rw [hcand, mapLookup_mapInsert, if_neg hsha] at hb
              obtain ⟨⟨r1, hr1, hr1p⟩, hmin⟩ := hs b hb
              refine ⟨⟨r1, List.mem_append.mpr (Or.inl hr1), hr1p⟩,
                fun x hx hxe hxs => ?_⟩
              rcases List.mem_append.mp hx with hx | hx
              · exact hmin x hx hxe hxs
              · rw [List.mem_singleton.mp hx] at hxs
                exact absurd hxs.symm hsha
        · rw [if_neg hlt] at hcand
          intro sha
          obtain ⟨hn, hs⟩ := hinv sha
          refine ⟨fun hnone x hx hxe => ?_, fun b hb => ?_⟩
          · rw [hcand] at hnone
            rcases List.mem_append.mp hx with hx | hx
            · exact hn hnone x hx hxe
            · rw [List.mem_singleton.mp hx]
              intro hc
              rw [hc] at hl
              rw [hnone] at hl
              exact Option.noConfusion hl
          · rw [hcand] at hb
            obtain ⟨⟨r1, hr1, hr1p⟩, hmin⟩ := hs b hb
            refine ⟨⟨r1, List.mem_append.mpr (Or.inl hr1), hr1p⟩,
              fun x hx hxe hxs => ?_⟩
            rcases List.mem_append.mp hx with hx | hx
            · exact hmin x hx hxe hxs
            · rw [List.mem_singleton.mp hx] at hxs ⊢
              rw [hxs] at hl
              rw [hb] at hl
              have hbs : b = stored := by injection hl
              rw [hbs]
              exact not_lt.mp hlt

theorem aggLoop_inv (bo : String → Int) :
    ∀ (rs : List ManifestResp) (st stF : AggState) (processed : List ManifestResp),
      aggCandInv bo processed st.candidates →
      aggLoop bo rs st = GoResult.ok stF →
      aggCandInv bo (processed ++ rs) stF.candidates := by
  intro rs
  induction rs with
  | nil =>
    intro st stF processed hinv h
    have hst : st = stF := by injection h
    subst hst
    simpa using hinv
  | cons r rest ih =>
    intro st stF processed hinv h
    unfold aggLoop at h
    cases hstep : aggStep bo st r with
    | err e =>
      simp only [hstep] at h
      exact GoResult.noConfusion h
    | panic =>
      simp only [hstep] at h
      exact GoResult.noConfusion h
    | ok st' =>
      simp only [hstep] at h
      have hres := ih st' stF (processed ++ [r])
        (aggStep_inv bo processed st st' r hinv hstep) h
      simpa [List.append_assoc] using hres

theorem getRepoDataAgg_char (bn : List String) (rs : List ManifestResp) (st : AggState)
    (hnd : bn.Nodup)
    (hmem : ∀ r ∈ rs, r.isErr = false → r.buildNum ∈ bn)
    (h : getRepoDataAgg bn rs = GoResult.ok st) :
    ∀ sha b, mapLookup st.candidates sha = some b ↔
      ((∃ r ∈ rs, r.isErr = false ∧ r.sha = sha ∧ r.buildNum = b) ∧
       (∀ r ∈ rs, r.isErr = false → r.sha = sha →
         buildOrder bn b ≤ buildOrder bn r.buildNum)) := by
  unfold getRepoDataAgg at h
  cases hl : aggLoop (buildOrder bn) rs (aggInit bn.length) with
  | err e =>
    simp only [hl] at h
    exact GoResult.noConfusion h
  | panic =>
    simp only [hl] at h
    exact GoResult.noConfusion h
  | ok st0 =>
    simp only [hl] at h
    by_cases hemp : st0.candidates.isEmpty
    · rw [if_pos hemp] at h
      exact GoResult.noConfusion h
    · rw [if_neg hemp] at h
      have hst : st0 = st := by injection h
      subst hst
      have hinit : aggCandInv (buildOrder bn) [] (aggInit bn.length).candidates := by
        intro sha
        refine ⟨fun _ x hx => absurd hx (List.not_mem_nil x), fun b hb => ?_⟩
        rw [show (aggInit bn.length).candidates = [] from rfl, mapLookup_nil] at hb
        exact Option.noConfusion hb
      have hinv := aggLoop_inv (buildOrder bn) rs (aggInit bn.length) st0 [] hinit hl
      rw [List.nil_append] at hinv
      intro sha b
      obtain ⟨hn, hs⟩ := hinv sha
      constructor
      · exact fun hsb => hs b hsb
      · rintro ⟨⟨r0, hr0, hr0e, hr0s, hr0b⟩, hmin⟩
        cases hc : mapLookup st0.candidates sha with
        | none => exact absurd hr0s (hn hc r0 hr0 hr0e)
        | some b' =>
          obtain ⟨⟨r1, hr1, hr1e, hr1s, hr1b⟩, hmin'⟩ := hs b' hc
          have h1 : buildOrder bn b ≤ buildOrder bn b' := by
            have := hmin r1 hr1 hr1e hr1s
            rw [hr1b] at this
            exact this
          have h2 : buildOrder bn b' ≤ buildOrder bn b := by
            have := hmin' r0 hr0 hr0e hr0s
            rw [hr0b] at this
            exact this
          have hbmem : b ∈ bn := by
            have := hmem r0 hr0 hr0e
            rw [hr0b] at this
            exact this
          have hbmem' : b' ∈ bn := by
            have := hmem r1 hr1 hr1e
            rw [hr1b] at this
            exact this
          have hbb : b = b' := buildOrder_inj bn hnd b b' hbmem hbmem' (le_antisymm h1 h2)
          rw [hbb]

/-- C7: the Candidates map built by the `getRepoData` aggregation binds
each repository SHA exactly to the build, among the successfully parsed
manifest responses, with the smallest `buildOrder` value - i.e. the
earliest (oldest) build of the window that pinned that SHA - and the
resulting map is the same whatever the order in which the per-manifest
results arrive. -/
theorem getRepoData_candidates_earliest :
    ∀ (buildNums : List String) (rs : List ManifestResp) (st : AggState),
      buildNums.Nodup →
      (∀ r ∈ rs, r.isErr = false → r.buildNum ∈ buildNums) →
      getRepoDataAgg buildNums rs = GoResult.ok st →
      (∀ sha b, mapLookup st.candidates sha = some b ↔
        ((∃ r ∈ rs, r.isErr = false ∧ r.sha = sha ∧ r.buildNum = b) ∧
         (∀ r ∈ rs, r.isErr = false → r.sha = sha →
           buildOrder buildNums b ≤ buildOrder buildNums r.buildNum))) ∧
      (∀ (rs' : List ManifestResp) (st' : AggState), List.Perm rs rs' →
        getRepoDataAgg buildNums rs' = GoResult.ok st' →
        ∀ sha, mapLookup st'.candidates sha = mapLookup st.candidates sha) := by
  intro bn rs st hnd hmem h
  have hchar := getRepoDataAgg_char bn rs st hnd hmem h
  refine ⟨hchar, fun rs' st' hperm h' sha => ?_⟩
  have hmem' : ∀ r ∈ rs', r.isErr = false → r.buildNum ∈ bn :=
    fun r hr => hmem r (hperm.symm.subset hr)
  have hchar' := getRepoDataAgg_char bn rs' st' hnd hmem' h'
  have htrans : ∀ b,
      ((∃ r ∈ rs', r.isErr = false ∧ r.sha = sha ∧ r.buildNum = b) ∧
       (∀ r ∈ rs', r.isErr = false → r.sha = sha →
         buildOrder bn b ≤ buildOrder bn r.buildNum)) ↔
      ((∃ r ∈ rs, r.isErr = false ∧ r.sha = sha ∧ r.buildNum = b) ∧
       (∀ r ∈ rs, r.isErr = false → r.sha = sha →
         buildOrder bn b ≤ buildOrder bn r.buildNum)) := by
    intro b
    constructor
    · rintro ⟨⟨r0, hr0, hp⟩, hm⟩
      exact ⟨⟨r0, hperm.symm.subset hr0, hp⟩, fun x hx => hm x (hperm.subset hx)⟩
    · rintro ⟨⟨r0, hr0, hp⟩, hm⟩
      exact ⟨⟨r0, hperm.subset hr0, hp⟩, fun x hx => hm x (hperm.symm.subset hx)⟩
  cases hc' : mapLookup st'.candidates sha with
  | some b =>
    rw [(hchar sha b).mpr ((htrans b).mp ((hchar' sha b).mp hc'))]
  | none =>
    cases hc : mapLookup st.candidates sha with
    | none => rfl
    | some b =>
      have hcontra := (hchar' sha b).mpr ((htrans b).mpr ((hchar sha b).mp hc))
      rw [hc'] at hcontra
      exact Option.noConfusion hcontra

/-- C7 witness: a two-build window with both manifests pinning the same
SHA; whichever response arrives first, the candidate map binds the SHA
to `b1`, the earliest (oldest) build of the window. -/
theorem getRepoData_candidates_earliest_witness :
    mapLookup (AggState.mk [("s", "b1")] "s" "s" "u" (-1) 0).candidates "s" = some "b1" ∧
    mapLookup (AggState.mk [("s", "b1")] "s" "s" "u" (-1) 0).candidates "s" =
      mapLookup (AggState.mk [("s", "b1")] "s" "s" "u" (-1) 0).candidates "s" := by
  constructor
  · exact ((getRepoData_candidates_earliest ["b0", "b1"]
      [⟨"b1", "s", "u", false⟩, ⟨"b0", "s", "u", false⟩]
      (AggState.mk [("s", "b1")] "s" "s" "u" (-1) 0)
      (by decide) (by decide) (by decide)).1 "s" "b1").mpr (by decide)
  · exact (getRepoData_candidates_earliest ["b0", "b1"]
      [⟨"b1", "s", "u", false⟩, ⟨"b0", "s", "u", false⟩]
      (AggState.mk [("s", "b1")] "s" "s" "u" (-1) 0)
      (by decide) (by decide) (by decide)).2
      [⟨"b0", "s", "u", false⟩, ⟨"b1", "s", "u", false⟩]
      (AggState.mk [("s", "b1")] "s" "s" "u" (-1) 0)
      (List.Perm.swap _ _ _) (by decide) "s"
